import Mathlib

/-!
Verification development for the 3dsky organizer repository
(`sky_organizer_gui.py`, `org.py`).

The Python functions relevant to the specification's claims are shallowly
embedded as executable Lean definitions over `List Char` / `String`,
`Nat` counters and association lists.  File-system and network effects are
made explicit: directory contents are association lists from file names to
abstract contents, and the metadata service's answer is passed in as a
value of an explicit response type.
-/

set_option maxRecDepth 4096

namespace Sky

/-- ASCII whitespace recognised by Python's `\s` and `str.strip`
(the repository only manipulates ASCII file names). -/
def isPySpace (c : Char) : Bool :=
  c == ' ' || c == '\t' || c == '\n' || c == '\r' || c == '\x0b' || c == '\x0c'

/-- ASCII lower-case conversion, modelling `str.lower` on the ASCII
file names the program works with. -/
def lowerChar (c : Char) : Char :=
  if 'A' ≤ c && c ≤ 'Z' then Char.ofNat (c.toNat + 32) else c

/-- `pat.isPrefix of target`, modelling Python's `str.startswith`. -/
def pyStartsWith : List Char → List Char → Bool
  | [], _ => true
  | _ :: _, [] => false
  | p :: ps, t :: ts => p == t && pyStartsWith ps ts

/-- `os.path.splitext` on a plain file name: splits at the last dot,
except when every character before that dot is itself a dot
(so `.bashrc` and `...` have no extension).  Returns `(root, ext)`,
the extension including its leading dot. -/
def splitExtChars (cs : List Char) : List Char × List Char :=
  let r := cs.reverse
  let afterDot := r.takeWhile (fun c => c ≠ '.')
  match r.dropWhile (fun c => c ≠ '.') with
  | [] => (cs, [])
  | _ :: before =>
    if before.all (fun c => c == '.') then (cs, [])
    else (before.reverse, '.' :: afterDot.reverse)

/-- The lowercased extension of a file name,
`os.path.splitext(item)[1].lower()`. -/
def extOf (name : String) : String :=
  ⟨((splitExtChars name.data).2).map lowerChar⟩

/-- `[a-f0-9]` character class of the file-id regex. -/
def isHexLowerDigit (c : Char) : Bool :=
  c.isDigit || ('a' ≤ c && c ≤ 'f')

/-- `SkyFileOrganizer.extract_file_id`: take the `splitext` root of the
file name and return it when it matches `^\d+\.[a-f0-9]+$`. -/
def extract_file_id (filename : String) : Option String :=
  let base := (splitExtChars filename.data).1
  let ds := base.takeWhile Char.isDigit
  if ds.isEmpty then none
  else
    match base.dropWhile Char.isDigit with
    | '.' :: hx => if !hx.isEmpty && hx.all isHexLowerDigit then some ⟨base⟩ else none
    | _ => none

/-- `file_id.split(".")[0]`: the leading numeric segment of a file id. -/
def modelNumber (fid : String) : List Char :=
  fid.data.takeWhile (fun c => c ≠ '.')

/-!  ### The name normalizer, `re.sub(r"\s*\(\d+\)\s*", "", name).strip()`  -/

/-- Does `\(\d+\)` match at the head of `cs`?  (The pattern is rigid:
`\d+` can only denote the maximal digit run, since backtracking it
leaves a digit where `\)` is required.) -/
def parenAt : List Char → Bool
  | '(' :: r =>
    !(r.takeWhile Char.isDigit).isEmpty &&
      (match r.dropWhile Char.isDigit with
       | ')' :: _ => true
       | _ => false)
  | _ => false

/-- `re.search(r"\(\d+\)", s)`: some position of `cs` starts a
parenthesized-number match. -/
def hasParenNum : List Char → Bool
  | [] => false
  | c :: rest => parenAt (c :: rest) || hasParenNum rest

/-- One attempt of the pattern `\s*\(\d+\)\s*` at the current scan
position, as Python's engine performs it: greedy whitespace, `(`,
a maximal nonempty digit run, `)`, then greedy trailing whitespace.
On success, returns the remainder of the string after the match. -/
def tryParenMatch (cs : List Char) : Option (List Char) :=
  match cs.dropWhile isPySpace with
  | '(' :: r =>
    if (r.takeWhile Char.isDigit).isEmpty then none
    else
      match r.dropWhile Char.isDigit with
      | ')' :: r3 => some (r3.dropWhile isPySpace)
      | _ => none
  | _ => none

/-- `re.sub(r"\s*\(\d+\)\s*", "", ·)`: scan left to right; at each
position either remove a match and continue after it, or emit the
character and advance.  Structured with fuel (one unit per character)
so the definition stays kernel-reducible; `subParenRuns` instantiates
the fuel with the input length, which always suffices because each
step consumes at least one character. -/
def subParenRunsFuel : Nat → List Char → List Char
  | 0, cs => cs
  | _ + 1, [] => []
  | fuel + 1, c :: rest =>
    match tryParenMatch (c :: rest) with
    | some r => subParenRunsFuel fuel r
    | none => c :: subParenRunsFuel fuel rest

def subParenRuns (cs : List Char) : List Char :=
  subParenRunsFuel cs.length cs

/-- Python's `str.strip()`. -/
def pyStrip (cs : List Char) : List Char :=
  ((cs.dropWhile isPySpace).reverse.dropWhile isPySpace).reverse

/-- The duplicate-group key of `fix_duplicates`
(sky_organizer_gui.py line 1029):
`re.sub(r"\s*\(\d+\)\s*", "", filename).strip()`. -/
def normalizeName (s : String) : String :=
  ⟨pyStrip (subParenRuns s.data)⟩

/-!  ### The keeper rename, `re.sub(r"\s*\(\d+\)\s*$", "", kept_filename)`  -/

/-- `re.sub(r"\s*\(\d+\)\s*$", "", ·)`: remove a trailing
whitespace-padded parenthesized number anchored at the end of the
string, if present; otherwise return the input unchanged. -/
def stripTrailParen (cs : List Char) : List Char :=
  match (cs.reverse).dropWhile isPySpace with
  | ')' :: rest =>
    if (rest.takeWhile Char.isDigit).isEmpty then cs
    else
      match rest.dropWhile Char.isDigit with
      | '(' :: rest3 => (rest3.dropWhile isPySpace).reverse
      | _ => cs
  | _ => cs

/-- The new name computed for the kept file in `fix_duplicates`
(sky_organizer_gui.py lines 1098-1102): a rename is attempted only when
`re.search(r"\(\d+\)", kept_filename)` succeeds, and the new name strips
only a trailing parenthesized number (`$`-anchored pattern). -/
def renameTarget (name : String) : String :=
  if hasParenNum name.data then ⟨stripTrailParen name.data⟩ else name

/-!  ### Duplicate resolver (`fix_duplicates`, lines 1047-1107)  -/

/-- One member of a duplicate group: its base file name and its byte size
(`os.path.getsize`). -/
structure DupMember where
  name : String
  size : Nat
deriving DecidableEq, Repr

/-- Stable insertion of `x` (which precedes every element of the list in
the original enumeration) into a list sorted by size descending:
`x` goes in front of the first element whose size is `≤ x.size`.
This realizes `list.sort(key=size, reverse=True)`, which is stable. -/
def insertBySize (x : DupMember) : List DupMember → List DupMember
  | [] => [x]
  | y :: ys => if y.size ≤ x.size then x :: y :: ys else y :: insertBySize x ys

/-- `file_sizes.sort(key=lambda x: x[1], reverse=True)` (stable). -/
def sortBySizeDesc : List DupMember → List DupMember
  | [] => []
  | x :: xs => insertBySize x (sortBySizeDesc xs)

/-- The canonical member chosen by `fix_duplicates`
(sky_organizer_gui.py lines 1057-1077): sort by size descending (stable);
if every size equals the largest, prefer the first enumerated member whose
name has no `(n)` substring, defaulting to the sorted head; otherwise keep
the sorted head. -/
def keptFile (paths : List DupMember) : Option DupMember :=
  match sortBySizeDesc paths with
  | [] => none
  | s0 :: rest =>
    if (s0 :: rest).all (fun m => m.size == s0.size) then
      some ((paths.find? (fun p => !hasParenNum p.name.data)).getD s0)
    else some s0

/-- Largest size occurring in a list (`0` for the empty list);
spec-side vocabulary for "the single largest by size". -/
def maxSizeOf : List DupMember → Nat
  | [] => 0
  | x :: xs => max x.size (maxSizeOf xs)

/-- The canonical member as §4.5 of the spec words it: if all member
sizes are equal, the first enumerated member without a disambiguation
suffix, falling back to the first enumerated member; otherwise the first
enumerated member of maximal size. -/
def specCanonical (ms : List DupMember) : Option DupMember :=
  match ms with
  | [] => none
  | m0 :: rest =>
    if rest.all (fun m => m.size == m0.size) then
      some ((ms.find? (fun p => !hasParenNum p.name.data)).getD m0)
    else ms.find? (fun m => m.size == maxSizeOf ms)

/-!  ### Duplicate grouping (`fix_duplicates`, first pass, lines 1026-1037)  -/

/-- A file met during the `os.walk` scan: its directory and base name. -/
structure ScanFile where
  dir : String
  name : String
deriving DecidableEq, Repr

/-- The dictionary key under which `fix_duplicates` files a path:
the normalized base name (extension included). -/
def groupKey (f : ScanFile) : String := normalizeName f.name

/-- `file_groups[base_name].append(file_path)` on an insertion-ordered
dictionary represented as an association list. -/
def addToGroups (gs : List (String × List ScanFile)) (f : ScanFile) :
    List (String × List ScanFile) :=
  match gs with
  | [] => [(groupKey f, [f])]
  | (k, ps) :: rest =>
    if k = groupKey f then (k, ps ++ [f]) :: rest
    else (k, ps) :: addToGroups rest f

/-- The grouping pass of `fix_duplicates`. -/
def buildGroups (files : List ScanFile) : List (String × List ScanFile) :=
  files.foldl addToGroups []

/-- `{k: v for k, v in file_groups.items() if len(v) > 1}`. -/
def duplicateGroups (files : List ScanFile) : List (String × List ScanFile) :=
  (buildGroups files).filter (fun g => 1 < g.2.length)

/-- Two scanned files fall into one duplicate group. -/
def inSameDupGroup (files : List ScanFile) (f1 f2 : ScanFile) : Prop :=
  ∃ k ps, (k, ps) ∈ duplicateGroups files ∧ f1 ∈ ps ∧ f2 ∈ ps

/-!  ### Metadata lookup client and per-file pipeline
     (`get_model_details`, `process_single_file`, `worker`, `process_files`)  -/

/-- The failure ledger `not_found_files`: an insertion-ordered dictionary
from task identifier to reason. -/
abbrev Ledger := List (String × String)

/-- Python dict assignment `d[k] = v` on an insertion-ordered dictionary. -/
def dictSet (m : Ledger) (k v : String) : Ledger :=
  match m with
  | [] => [(k, v)]
  | (k', v') :: rest => if k' = k then (k, v) :: rest else (k', v') :: dictSet rest k v

/-- One image descriptor of the service response. -/
structure ApiImage where
  file_name : String
  web_path : Option String
deriving DecidableEq, Repr

/-- One model of the service response.  `category_parent` / `category`
hold the respective `title_en` when the field is present. -/
structure ApiModel where
  title_en : Option String
  category_parent : Option String
  category : Option String
  images : List ApiImage
deriving DecidableEq, Repr

/-- The `data.models` list of a successful service response. -/
structure ApiResponse where
  models : List ApiModel
deriving DecidableEq, Repr

/-- Outcome of the `requests.post` call: a parsed response, or an
exception (transport/protocol failure) with its message. -/
inductive ApiCall where
  | ok : ApiResponse → ApiCall
  | error : String → ApiCall
deriving DecidableEq, Repr

/-- The category list built by `get_model_details`:
parent title first, then category title, each when present. -/
def categoriesOf (m : ApiModel) : List String :=
  m.category_parent.toList ++ m.category.toList

/-- The fixed image base location. -/
def imageBaseUrl : String :=
  "https://b6.3ddd.ru/media/cache/tuk_model_custom_filter_ang_en/"

/-- The value returned by a successful `get_model_details`. -/
structure ModelDetails where
  categories : List String
  image_url : String
  title : Option String
deriving DecidableEq, Repr

/-- `SkyFileOrganizer.get_model_details` (sky_organizer_gui.py lines
839-902), with the network call's outcome passed in explicitly.  The
function returns the details (or `none`) *and* the resulting
`not_found_files` ledger, since the source writes into
`self.not_found_files` directly on the no-model, no-category and
exception paths — but not on the no-matching-image path. -/
def get_model_details (L : Ledger) (fid : String) (call : ApiCall) :
    Option ModelDetails × Ledger :=
  match call with
  | ApiCall.error e => (none, dictSet L fid e)
  | ApiCall.ok resp =>
    match resp.models with
    | [] => (none, dictSet L fid "No models found in API response")
    | m :: _ =>
      let categories := categoriesOf m
      if categories.isEmpty then (none, dictSet L fid "No categories found")
      else
        match (m.images.find?
            (fun im => pyStartsWith (modelNumber fid) im.file_name.data)).bind
            (fun im => im.web_path) with
        | none => (none, L)
        | some p =>
          (some { categories := categories, image_url := imageBaseUrl ++ p,
                  title := m.title_en }, L)

/-- `create_folder_structure`'s sanitization of one category segment:
`re.sub(r'[<>:"/\\|?*]', "", category)`. -/
def sanitizeCategory (c : String) : String :=
  ⟨c.data.filter (fun ch =>
    !(ch == '<' || ch == '>' || ch == ':' || ch == '"' || ch == '/' ||
      ch == '\\' || ch == '|' || ch == '?' || ch == '*'))⟩

/-- Destination folder of a task, as the ordered list of sanitized
category segments under the models root (`create_folder_structure`). -/
def create_folder_structure (categories : List String) : List String :=
  categories.map sanitizeCategory

/-- Environment of one task: the service's answer for its file id, and
whether the `shutil.move` of the archive succeeds. -/
structure TaskEnv where
  call : ApiCall
  moveOk : Bool
deriving DecidableEq, Repr

/-- Where a task's archive ended up. -/
inductive Placement where
  | placed : List String → Placement
  | notPlaced : Placement
deriving DecidableEq, Repr

/-- `SkyFileOrganizer.process_single_file` (lines 671-725), reduced to
its placement-and-ledger effect: invalid names are recorded in the
ledger; a failed lookup ends the task with whatever ledger
`get_model_details` produced; otherwise the archive is moved into the
category folder (or, if the move raises, the task ends unplaced with
the ledger untouched).  The image download / comparison and the folder
summary write that follow touch neither the placement nor the ledger. -/
def process_single_file (L : Ledger) (filename : String) (env : TaskEnv) :
    Placement × Ledger :=
  match extract_file_id filename with
  | none => (Placement.notPlaced, dictSet L filename "Invalid filename format")
  | some fid =>
    match get_model_details L fid env.call with
    | (none, L') => (Placement.notPlaced, L')
    | (some d, L') =>
      if env.moveOk then (Placement.placed (create_folder_structure d.categories), L')
      else (Placement.notPlaced, L')

/-- One enumerated task: the compressed file's name plus its environment. -/
structure Task where
  filename : String
  env : TaskEnv
deriving DecidableEq, Repr

/-- Result of one task, as recorded by the run: was the archive placed,
and did processing this task change the failure ledger? -/
structure TaskResult where
  filename : String
  placement : Placement
  ledgered : Bool
deriving DecidableEq, Repr

/-- Shared state of `process_files`: the progress counter
`processed_count`, the `not_found_files` ledger and the per-task
results. -/
structure RunState where
  processed_count : Nat
  ledger : Ledger
  results : List TaskResult
deriving DecidableEq, Repr

/-- One `worker` iteration on a dequeued task (lines 637-669): the
counter is incremented exactly once per task — before processing,
inside `counter_lock` — and the task is processed with any exception
confined to the task. -/
def runStep (s : RunState) (t : Task) : RunState :=
  let r := process_single_file s.ledger t.filename t.env
  { processed_count := s.processed_count + 1
    ledger := r.2
    results := s.results ++ [⟨t.filename, r.1, decide (r.2 ≠ s.ledger)⟩] }

/-- The aggregate effect of `process_files` (lines 578-635): the queue
is filled with every enumerated task followed by one sentinel per
worker, so after the `join` every task has been dequeued and processed
exactly once.  Interleaving only permutes the processing order; we fold
in enumeration order. -/
def process_files_model (tasks : List Task) : RunState :=
  tasks.foldl runStep ⟨0, [], []⟩

/-!  ### Image quality resolver (`handle_duplicate_images`, lines 727-782)  -/

/-- One candidate preview image: `resolution = width*height` pixels and
byte size, as collected by `handle_duplicate_images`. -/
structure ImgCandidate where
  resolution : Nat
  size : Nat
deriving DecidableEq, Repr

/-- Python tuple comparison `(a.resolution, a.size) > (b.resolution, b.size)`. -/
def imgKeyGt (a b : ImgCandidate) : Bool :=
  b.resolution < a.resolution || (a.resolution == b.resolution && b.size < a.size)

/-- `max(existing_images, key=lambda x: (x["resolution"], x["size"]))`:
fold keeping the current maximum, replacing it only on a strictly
greater key (so the first maximal element wins ties). -/
def pyMaxBy (e : ImgCandidate) (es : List ImgCandidate) : ImgCandidate :=
  es.foldl (fun acc x => if imgKeyGt x acc then x else acc) e

/-- The decision of `handle_duplicate_images` (lines 759-777): the
existing images are kept (and the downloaded one deleted) precisely when
`best_existing["resolution"] > new_resolution` or the resolutions are
equal and `best_existing["size"] > new_size`; with no existing images
the new one is kept. -/
def keepExisting (existing : List ImgCandidate) (incoming : ImgCandidate) : Bool :=
  match existing with
  | [] => false
  | e :: es =>
    let best := pyMaxBy e es
    incoming.resolution < best.resolution ||
      (best.resolution == incoming.resolution && incoming.size < best.size)

/-- Spec-side strict lexicographic "beats": primary key resolution,
tie-break byte size. -/
def lexBeats (a b : ImgCandidate) : Prop :=
  b.resolution < a.resolution ∨ (a.resolution = b.resolution ∧ b.size < a.size)

/-- Spec-side lexicographic "at least". -/
def lexAtLeast (a b : ImgCandidate) : Prop :=
  b.resolution < a.resolution ∨ (a.resolution = b.resolution ∧ b.size ≤ a.size)

/-!  ### Folder summary aggregators
     (`update_folder_summary` in sky_organizer_gui.py and in org.py)  -/

/-- A directory: its immediate file names and its immediate
subdirectories. -/
inductive Dir where
  | node : List String → List Dir → Dir
deriving Repr

/-- A folder summary record (the `last_updated` timestamp field is
omitted: it is wall-clock dependent and excluded by the spec's own
idempotence statement). -/
structure Summary where
  total_files : Nat
  total_subfolders : Nat
  file_types : List (String × Nat)
deriving DecidableEq, Repr

/-- `summary["file_types"][ext] = summary["file_types"].get(ext, 0) + 1`. -/
def bumpExt (m : List (String × Nat)) (k : String) : List (String × Nat) :=
  match m with
  | [] => [(k, 1)]
  | (k', v) :: rest => if k' = k then (k', v + 1) :: rest else (k', v) :: bumpExt rest k

/-- `SkyFileOrganizer.update_folder_summary` of sky_organizer_gui.py
(lines 945-981): counts the immediate subfolders, and the immediate
files other than `folder_summary.json` grouped by lowercased
extension. -/
def update_folder_summary_gui : Dir → Summary
  | Dir.node fs ds =>
    let files := fs.filter (fun f => f ≠ "folder_summary.json")
    { total_files := files.length
      total_subfolders := ds.length
      file_types := files.foldl (fun m f => bumpExt m (extOf f)) [] }

mutual

/-- The directories visited by `os.walk(folder_path)` in top-down order. -/
def walkDirs : Dir → List Dir
  | Dir.node fs ds => Dir.node fs ds :: walkDirsList ds

def walkDirsList : List Dir → List Dir
  | [] => []
  | d :: ds => walkDirs d ++ walkDirsList ds

end

/-- The per-visited-directory accumulation of org.py's
`update_folder_summary` loop (org.py lines 170-177). -/
def orgStep (s : Summary) (d : Dir) : Summary :=
  match d with
  | Dir.node fs ds =>
    let files := fs.filter (fun f => f ≠ "folder_summary.json")
    { total_files := s.total_files + files.length
      total_subfolders := s.total_subfolders + ds.length
      file_types := files.foldl (fun m f => bumpExt m (extOf f)) s.file_types }

/-- `SkyFileOrganizer.update_folder_summary` of org.py (lines 160-187):
an `os.walk` over the *whole* subtree accumulating file, subfolder and
extension counts at every level. -/
def update_folder_summary_org (d : Dir) : Summary :=
  (walkDirs d).foldl orgStep ⟨0, 0, []⟩

mutual

/-- Number of files in the whole subtree, `folder_summary.json` excluded
at every level: spec-side description of what org.py actually counts. -/
def subtreeFileCount : Dir → Nat
  | Dir.node fs ds =>
    (fs.filter (fun f => f ≠ "folder_summary.json")).length + subtreeFileCountList ds

def subtreeFileCountList : List Dir → Nat
  | [] => 0
  | d :: ds => subtreeFileCount d + subtreeFileCountList ds

end

mutual

/-- Number of directories strictly below the root of the subtree. -/
def subtreeDirCount : Dir → Nat
  | Dir.node _ ds => ds.length + subtreeDirCountList ds

def subtreeDirCountList : List Dir → Nat
  | [] => 0
  | d :: ds => subtreeDirCount d + subtreeDirCountList ds

end

/-!  ### Asset transfer (`merge_folders` lines 436-464,
     `process_single_file` lines 696-706)  -/

/-- Contents of a destination folder: file name to abstract content. -/
abbrev Folder := List (String × Nat)

/-- Association-list lookup, first match. -/
def lookupA : Folder → String → Option Nat
  | [], _ => none
  | (k, v) :: rest, key => if k = key then some v else lookupA rest key

/-- Insertion-ordered upsert of a file into a folder. -/
def putFile (m : Folder) (k : String) (v : Nat) : Folder :=
  match m with
  | [] => [(k, v)]
  | (k', v') :: rest => if k' = k then (k, v) :: rest else (k', v') :: putFile rest k v

/-- What `merge_folders` did with one source file. -/
inductive MergeAction where
  | skippedSummary
  | skippedExisting
  | moved
deriving DecidableEq, Repr

/-- The per-file body of the `merge_folders` loop (sky_organizer_gui.py
lines 436-464): `folder_summary.json` is skipped; a file whose name
already exists at the destination is skipped with an "already exists"
report; otherwise the file is moved (or copied) in. -/
def merge_file_step (dest : Folder) (name : String) (content : Nat) :
    Folder × MergeAction :=
  if name = "folder_summary.json" then (dest, MergeAction.skippedSummary)
  else
    match lookupA dest name with
    | some _ => (dest, MergeAction.skippedExisting)
    | none => (dest ++ [(name, content)], MergeAction.moved)

/-- The `merge_folders` file loop over one directory. -/
def merge_folder_files (dest : Folder) (files : List (String × Nat)) : Folder :=
  files.foldl (fun d f => (merge_file_step d f.1 f.2).1) dest

/-- The archive move of `process_single_file` (lines 696-706):
`shutil.move(source_path, dest_path)` is invoked with **no**
destination-existence check, and `shutil.move` onto an existing regular
file replaces it (`os.rename` / `copy2` overwrite semantics), so the
write is an unconditional upsert. -/
def organizerArchiveMove (destFolder : Folder) (name : String) (content : Nat) :
    Folder :=
  putFile destFolder name content

end Sky

-- sanity examples (evaluated by the kernel, removed names used nowhere else)
example : Sky.normalizeName "model (1).zip" = "model.zip" := by decide
example : Sky.normalizeName "(1(2))" = "(1)" := by decide
example : Sky.renameTarget "model (1).zip" = "model (1).zip" := by decide
example : Sky.renameTarget "model.zip (1)" = "model.zip" := by decide
example : Sky.extract_file_id "123.abc.zip" = some "123.abc" := by decide
example : Sky.extract_file_id "notamodel.zip" = none := by decide
example : Sky.extOf "A.ZiP" = ".zip" := by decide

namespace Sky

/-!  ## General list lemmas used by the claim proofs  -/

theorem length_dropWhile_le (p : Char → Bool) :
    ∀ l : List Char, (l.dropWhile p).length ≤ l.length := by
  intro l
  induction l with
  | nil => simp [List.dropWhile]
  | cons x xs ih =>
    by_cases h : p x
    · simp [List.dropWhile, h]
      omega
    · simp [List.dropWhile, h]

theorem dropWhile_dropWhile (p : Char → Bool) :
    ∀ l : List Char, (l.dropWhile p).dropWhile p = l.dropWhile p := by
  intro l
  induction l with
  | nil => simp [List.dropWhile]
  | cons x xs ih =>
    by_cases h : p x
    · simpa [List.dropWhile, h] using ih
    · simp [List.dropWhile, h]

theorem head_dropWhile_false (p : Char → Bool) :
    ∀ (l : List Char) (c : Char), (l.dropWhile p).head? = some c → p c = false := by
  intro l
  induction l with
  | nil => intro c h; simp [List.dropWhile] at h
  | cons x xs ih =>
    intro c h
    by_cases hx : p x
    · exact ih c (by simpa [List.dropWhile, hx] using h)
    · simp [List.dropWhile, hx] at h
      subst h
      simpa using hx

theorem dropWhile_eq_self_of_head (p : Char → Bool) (l : List Char)
    (h : ∀ c, l.head? = some c → p c = false) : l.dropWhile p = l := by
  cases l with
  | nil => simp [List.dropWhile]
  | cons x xs =>
    have hx := h x (by simp)
    simp [List.dropWhile, hx]

theorem getLast?_dropWhile (p : Char → Bool) :
    ∀ l : List Char, l.dropWhile p ≠ [] → (l.dropWhile p).getLast? = l.getLast? := by
  intro l
  induction l with
  | nil => intro h; simp [List.dropWhile] at h
  | cons x xs ih =>
    intro h
    by_cases hx : p x
    · have hxs : xs.dropWhile p ≠ [] := by simpa [List.dropWhile, hx] using h
      have hne : xs ≠ [] := by
        intro he; subst he; simp [List.dropWhile] at hxs
      rw [show (x :: xs).dropWhile p = xs.dropWhile p by simp [List.dropWhile, hx], ih hxs]
      cases xs with
      | nil => exact absurd rfl hne
      | cons y ys => rw [List.getLast?_cons_cons]
    · simp [List.dropWhile, hx]

theorem dropWhile_all_append (p : Char → Bool) :
    ∀ a b : List Char, (∀ c ∈ a, p c = true) → (a ++ b).dropWhile p = b.dropWhile p := by
  intro a
  induction a with
  | nil => intro b _; simp
  | cons x xs ih =>
    intro b h
    have hx : p x = true := h x (by simp)
    simpa [List.dropWhile, hx] using ih b (fun c hc => h c (by simp [hc]))

theorem takeWhile_append_stop (p : Char → Bool) :
    ∀ (a : List Char) (c : Char) (t : List Char), (∀ d ∈ a, p d = true) → p c = false →
      (a ++ c :: t).takeWhile p = a := by
  intro a
  induction a with
  | nil => intro c t _ hc; simp [List.takeWhile, hc]
  | cons x xs ih =>
    intro c t h hc
    have hx : p x = true := h x (by simp)
    simpa [List.takeWhile, hx] using ih c t (fun d hd => h d (by simp [hd])) hc

theorem dropWhile_append_stop (p : Char → Bool) :
    ∀ (a : List Char) (c : Char) (t : List Char), (∀ d ∈ a, p d = true) → p c = false →
      (a ++ c :: t).dropWhile p = c :: t := by
  intro a c t h hc
  rw [dropWhile_all_append p a (c :: t) h]
  simp [List.dropWhile, hc]

/-!  ## C7: idempotence of the name normalizer  -/

theorem parenAt_hasParenNum (p : Char → Bool) :
    ∀ cs : List Char, parenAt (cs.dropWhile p) = true → hasParenNum cs = true := by
  intro cs
  induction cs with
  | nil => intro h; simp [List.dropWhile, parenAt] at h
  | cons c rest ih =>
    intro h
    by_cases hc : p c
    · have := ih (by simpa [List.dropWhile, hc] using h)
      simp [hasParenNum, this]
    · rw [dropWhile_eq_self_of_head p _ (by intro d hd; simp at hd; subst hd; simpa using hc)] at h
      simp [hasParenNum, h]

theorem tryParenMatch_none (cs : List Char) (h : hasParenNum cs = false) :
    tryParenMatch cs = none := by
  unfold tryParenMatch
  split
  next r heq =>
    split
    next => rfl
    next hne =>
      split
      next r3 heq2 =>
        exfalso
        have hne' : (r.takeWhile Char.isDigit).isEmpty = false := by
          cases hie : (r.takeWhile Char.isDigit).isEmpty
          · rfl
          · exact absurd hie hne
        have hp : parenAt (cs.dropWhile isPySpace) = true := by
          rw [heq]
          simp [parenAt, heq2, hne']
        rw [parenAt_hasParenNum isPySpace cs hp] at h
        simp at h
      next => rfl
  next => rfl

theorem subParenRunsFuel_eq_self :
    ∀ (fuel : Nat) (cs : List Char), hasParenNum cs = false →
      subParenRunsFuel fuel cs = cs := by
  intro fuel
  induction fuel with
  | zero => intro cs _; rfl
  | succ n ih =>
    intro cs h
    cases cs with
    | nil => rfl
    | cons c rest =>
      have hsplit : parenAt (c :: rest) = false ∧ hasParenNum rest = false := by
        simpa [hasParenNum] using h
      have hnone : tryParenMatch (c :: rest) = none := tryParenMatch_none _ h
      simp [subParenRunsFuel, hnone, ih rest hsplit.2]

theorem subParenRuns_eq_self (cs : List Char) (h : hasParenNum cs = false) :
    subParenRuns cs = cs :=
  subParenRunsFuel_eq_self cs.length cs h

theorem pyStrip_idem (l : List Char) : pyStrip (pyStrip l) = pyStrip l := by
  unfold pyStrip
  set a := l.dropWhile isPySpace with ha
  set b := a.reverse.dropWhile isPySpace with hb
  by_cases hbne : b = []
  · rw [hbne]
    simp [List.dropWhile]
  have h1 : b.reverse.dropWhile isPySpace = b.reverse := by
    apply dropWhile_eq_self_of_head
    intro c hc
    rw [List.head?_reverse] at hc
    have h2 : b.getLast? = a.reverse.getLast? := by
      rw [hb]; exact getLast?_dropWhile isPySpace a.reverse (by rw [← hb]; exact hbne)
    have h3 : a.reverse.getLast? = a.head? := by
      have h4 := List.head?_reverse a.reverse
      rw [List.reverse_reverse] at h4
      exact h4.symm
    rw [h2, h3] at hc
    exact head_dropWhile_false isPySpace l c hc
  have h4 : List.dropWhile isPySpace b = b := by
    rw [hb]; exact dropWhile_dropWhile _ _
  rw [h1, List.reverse_reverse, h4]

theorem normalizeName_fixed (s : String)
    (h : hasParenNum (normalizeName s).data = false) :
    normalizeName (normalizeName s) = normalizeName s := by
  rcases hs : normalizeName s with ⟨t⟩
  rw [hs] at h
  have ht : t = pyStrip (subParenRuns s.data) := by
    have := congrArg String.data hs
    simpa [normalizeName] using this.symm
  show normalizeName ⟨t⟩ = ⟨t⟩
  rw [normalizeName]
  simp only [String.data]
  rw [subParenRuns_eq_self t h, ht, pyStrip_idem]

/-- C7 (corrected): the normalization `re.sub(r"\s*\(\d+\)\s*", "", name).strip()`
used for duplicate-group keying is *not* idempotent in general (removing one
parenthesized number can create a new one, see the counterexample); it is
idempotent for every name whose single normalization contains no remaining
parenthesized-number substring. -/
theorem claim_C7 (s : String) (h : hasParenNum (normalizeName s).data = false) :
    normalizeName (normalizeName s) = normalizeName s :=
  normalizeName_fixed s h

/-- C7 witness: the amended idempotence at the concrete name `model (1).zip`. -/
theorem claim_C7_witness :
    hasParenNum (normalizeName "model (1).zip").data = false ∧
      normalizeName (normalizeName "model (1).zip") = normalizeName "model (1).zip" :=
  ⟨by decide, claim_C7 "model (1).zip" (by decide)⟩

/-- C7 counterexample: on `"(1(2))"` one normalization pass yields `"(1)"`
(removing `(2)` glues `(1` and `)` together), and a second pass yields `""`,
so `normalize (normalize name) ≠ normalize name`. -/
theorem claim_C7_counterexample :
    normalizeName (normalizeName "(1(2))") ≠ normalizeName "(1(2))" := by decide

/-!  ## C6: renaming of the kept duplicate  -/

theorem hasParenNum_append_right :
    ∀ a b : List Char, hasParenNum b = true → hasParenNum (a ++ b) = true := by
  intro a b h
  induction a with
  | nil => simpa using h
  | cons x xs ih => simp [hasParenNum, ih]

theorem parenAt_open_digits (ds w : List Char) (hds : ds ≠ [])
    (hdig : ∀ d ∈ ds, d.isDigit = true) :
    parenAt ('(' :: (ds ++ ')' :: w)) = true := by
  have h1 : (ds ++ ')' :: w).takeWhile Char.isDigit = ds :=
    takeWhile_append_stop _ ds ')' w hdig (by decide)
  have h2 : (ds ++ ')' :: w).dropWhile Char.isDigit = ')' :: w :=
    dropWhile_append_stop _ ds ')' w hdig (by decide)
  have hie : ds.isEmpty = false := by
    cases ds with
    | nil => exact absurd rfl hds
    | cons d dt => rfl
  simp [parenAt, h1, h2, hie]

theorem stripTrailParen_strips (q : List Char) (c : Char) (w1 ds w2 : List Char)
    (hc : isPySpace c = false)
    (hw1 : ∀ d ∈ w1, isPySpace d = true)
    (hw2 : ∀ d ∈ w2, isPySpace d = true)
    (hds : ds ≠ [])
    (hdig : ∀ d ∈ ds, d.isDigit = true) :
    stripTrailParen ((q ++ [c]) ++ w1 ++ ('(' :: (ds ++ ')' :: w2))) = q ++ [c] := by
  have hrev : ((q ++ [c]) ++ w1 ++ ('(' :: (ds ++ ')' :: w2))).reverse
      = w2.reverse ++ ')' :: (ds.reverse ++ '(' :: (w1.reverse ++ (c :: q.reverse))) := by
    simp [List.reverse_append, List.append_assoc]
  have hdw : (((q ++ [c]) ++ w1 ++ ('(' :: (ds ++ ')' :: w2))).reverse).dropWhile isPySpace
      = ')' :: (ds.reverse ++ '(' :: (w1.reverse ++ (c :: q.reverse))) := by
    rw [hrev]
    exact dropWhile_append_stop isPySpace w2.reverse ')' _
      (fun d hd => hw2 d (List.mem_reverse.mp hd)) (by decide)
  have htw : (ds.reverse ++ '(' :: (w1.reverse ++ (c :: q.reverse))).takeWhile Char.isDigit
      = ds.reverse :=
    takeWhile_append_stop _ ds.reverse '(' _
      (fun d hd => hdig d (List.mem_reverse.mp hd)) (by decide)
  have hdw2 : (ds.reverse ++ '(' :: (w1.reverse ++ (c :: q.reverse))).dropWhile Char.isDigit
      = '(' :: (w1.reverse ++ (c :: q.reverse)) :=
    dropWhile_append_stop _ ds.reverse '(' _
      (fun d hd => hdig d (List.mem_reverse.mp hd)) (by decide)
  have hie : ds.reverse.isEmpty = false := by
    cases hdr : ds.reverse with
    | nil => exact absurd (by simpa using hdr) hds
    | cons d dt => rfl
  have hdw3 : (w1.reverse ++ (c :: q.reverse)).dropWhile isPySpace = c :: q.reverse := by
    exact dropWhile_append_stop isPySpace w1.reverse c q.reverse
      (fun d hd => hw1 d (List.mem_reverse.mp hd)) hc
  unfold stripTrailParen
  rw [hdw]
  simp only [htw, hie, hdw2, hdw3, Bool.false_eq_true, if_false]
  simp

/-- C6 (corrected): the keeper rename of `fix_duplicates` strips only a
*trailing* whitespace-padded `(n)` suffix (the substitution pattern is
anchored with `$`): for a kept name of the shape
`stem ++ spaces ++ "(digits)" ++ spaces` the computed new name is `stem`.
When the parenthesized number sits before the extension — the shape
`fix_duplicates`' own grouping normalizes — the computed new name equals
the old name, so the keeper is not actually cleaned (see the
counterexample). -/
theorem claim_C6 (q : List Char) (c : Char) (w1 ds w2 : List Char)
    (hc : isPySpace c = false)
    (hw1 : ∀ d ∈ w1, isPySpace d = true)
    (hw2 : ∀ d ∈ w2, isPySpace d = true)
    (hds : ds ≠ [])
    (hdig : ∀ d ∈ ds, d.isDigit = true) :
    renameTarget ⟨(q ++ [c]) ++ w1 ++ ('(' :: (ds ++ ')' :: w2))⟩ = ⟨q ++ [c]⟩ := by
  have hparen : hasParenNum ((q ++ [c]) ++ w1 ++ ('(' :: (ds ++ ')' :: w2))) = true := by
    have hsuf : hasParenNum ('(' :: (ds ++ ')' :: w2)) = true := by
      simp [hasParenNum, parenAt_open_digits ds w2 hds hdig]
    have := hasParenNum_append_right ((q ++ [c]) ++ w1) _ hsuf
    simpa [List.append_assoc] using this
  unfold renameTarget
  have hdata : (⟨(q ++ [c]) ++ w1 ++ ('(' :: (ds ++ ')' :: w2))⟩ : String).data
      = (q ++ [c]) ++ w1 ++ ('(' :: (ds ++ ')' :: w2)) := rfl
  rw [hdata, hparen]
  simp only [if_true]
  rw [stripTrailParen_strips q c w1 ds w2 hc hw1 hw2 hds hdig]

/-- C6 witness: the amended rename at the concrete kept name
`model.zip (1)`, which becomes `model.zip`. -/
theorem claim_C6_witness :
    (⟨("model.zi".data ++ ['p']) ++ [' '] ++ ('(' :: (['1'] ++ ')' :: []))⟩ : String)
        = "model.zip (1)" ∧
      renameTarget ⟨("model.zi".data ++ ['p']) ++ [' '] ++ ('(' :: (['1'] ++ ')' :: []))⟩
        = ⟨"model.zi".data ++ ['p']⟩ ∧
      (⟨"model.zi".data ++ ['p']⟩ : String) = "model.zip" :=
  ⟨by decide,
    claim_C6 "model.zi".data 'p' [' '] ['1'] [] (by decide) (by decide) (by decide)
      (by decide) (by decide),
    by decide⟩

/-- C6 counterexample: the claim's own example fails on the code — for the
kept file `model (1).zip` the `$`-anchored substitution does not match
(the suffix `(1)` is followed by `.zip`), so the "new" name equals the old
name and differs from the group's normalized name `model.zip`. -/
theorem claim_C6_counterexample :
    renameTarget "model (1).zip" = "model (1).zip" ∧
      normalizeName "model (1).zip" = "model.zip" ∧
      renameTarget "model (1).zip" ≠ normalizeName "model (1).zip" := by
  refine ⟨by decide, by decide, by decide⟩

/-!  ## C9: ledger effects of the metadata lookup client  -/

theorem categoriesOf_isEmpty_false {m : ApiModel} (h : categoriesOf m ≠ []) :
    (categoriesOf m).isEmpty = false := by
  cases hcm : categoriesOf m with
  | nil => exact absurd hcm h
  | cons a t => rfl

/-- C9 (corrected): `get_model_details` is *not* side-effect free on shared
state — it writes the failure reason into `not_found_files` itself on the
transport-error, no-model and no-category paths (and does so without taking
`not_found_lock`); the ledger is left unchanged exactly when the first
returned model carries a navigable category (the success and no-image
outcomes). -/
theorem claim_C9 :
    (∀ (L : Ledger) (fid e : String),
        (get_model_details L fid (ApiCall.error e)).2 = dictSet L fid e) ∧
    (∀ (L : Ledger) (fid : String),
        (get_model_details L fid (ApiCall.ok ⟨[]⟩)).2
          = dictSet L fid "No models found in API response") ∧
    (∀ (L : Ledger) (fid : String) (m : ApiModel) (ms : List ApiModel),
        categoriesOf m = [] →
          (get_model_details L fid (ApiCall.ok ⟨m :: ms⟩)).2
            = dictSet L fid "No categories found") ∧
    (∀ (L : Ledger) (fid : String) (m : ApiModel) (ms : List ApiModel),
        categoriesOf m ≠ [] →
          (get_model_details L fid (ApiCall.ok ⟨m :: ms⟩)).2 = L) := by
  refine ⟨fun L fid e => rfl, fun L fid => rfl, ?_, ?_⟩
  · intro L fid m ms h
    simp [get_model_details, h]
  · intro L fid m ms h
    have hie := categoriesOf_isEmpty_false h
    unfold get_model_details
    simp only [hie, Bool.false_eq_true, if_false]
    split <;> rfl

/-- C9 witness: with a category present and no matching image, the call
leaves the ledger untouched. -/
theorem claim_C9_witness :
    categoriesOf ⟨some "T", none, some "Chairs", []⟩ ≠ [] ∧
      (get_model_details [] "123.abc"
        (ApiCall.ok ⟨[⟨some "T", none, some "Chairs", []⟩]⟩)).2 = [] :=
  ⟨by decide, claim_C9.2.2.2 [] "123.abc" ⟨some "T", none, some "Chairs", []⟩ [] (by decide)⟩

/-- C9 counterexample: a lookup whose response contains no models mutates
`not_found_files` during the call itself, contradicting "the FailureLedger
is unchanged by the call, recording failures being the caller's
responsibility". -/
theorem claim_C9_counterexample :
    (get_model_details [] "123.abc" (ApiCall.ok ⟨[]⟩)).2
        = [("123.abc", "No models found in API response")] ∧
      (get_model_details [] "123.abc" (ApiCall.ok ⟨[]⟩)).2 ≠ [] := by
  refine ⟨by decide, by decide⟩

/-!  ## C2: the no-image outcome  -/

/-- C2 (corrected): when the service response has a navigable category
path but no image whose file name starts with the task's leading numeric
segment, the `NoImage` outcome is a *hard* failure for the task:
`get_model_details` returns no details, `process_single_file` returns
without placing the archive, and — unlike the other lookup failures — no
ledger entry is recorded. -/
theorem claim_C2 (L : Ledger) (name fid : String) (env : TaskEnv)
    (m : ApiModel) (ms : List ApiModel)
    (hid : extract_file_id name = some fid)
    (hcall : env.call = ApiCall.ok ⟨m :: ms⟩)
    (hcat : categoriesOf m ≠ [])
    (hnoimg : ∀ im ∈ m.images, pyStartsWith (modelNumber fid) im.file_name.data = false) :
    process_single_file L name env = (Placement.notPlaced, L) := by
  have hie := categoriesOf_isEmpty_false hcat
  have hfind : m.images.find?
      (fun im => pyStartsWith (modelNumber fid) im.file_name.data) = none := by
    rw [List.find?_eq_none]
    intro im him
    simp [hnoimg im him]
  unfold process_single_file
  rw [hid]
  unfold get_model_details
  rw [hcall]
  simp [hie, hfind]

/-- C2 witness: the amended behaviour at a concrete task whose response
has category `Chairs` but only a non-matching image. -/
theorem claim_C2_witness :
    process_single_file [] "123.abc.zip"
        ⟨ApiCall.ok ⟨[⟨some "T", none, some "Chairs", [⟨"999.jpg", some "w"⟩]⟩]⟩, true⟩
      = (Placement.notPlaced, []) :=
  claim_C2 [] "123.abc.zip" "123.abc"
    ⟨ApiCall.ok ⟨[⟨some "T", none, some "Chairs", [⟨"999.jpg", some "w"⟩]⟩]⟩, true⟩
    ⟨some "T", none, some "Chairs", [⟨"999.jpg", some "w"⟩]⟩ []
    (by decide) rfl (by decide) (by decide)

/-- C2 counterexample: at that same concrete input — navigable category,
no matching image, a move that would succeed — the archive is *not*
placed into its category folder, contradicting "classification of the
file still proceeds". -/
theorem claim_C2_counterexample :
    (process_single_file [] "123.abc.zip"
        ⟨ApiCall.ok ⟨[⟨some "T", none, some "Chairs", [⟨"999.jpg", some "w"⟩]⟩]⟩, true⟩).1
      = Placement.notPlaced ∧
      (process_single_file [] "123.abc.zip"
        ⟨ApiCall.ok ⟨[⟨some "T", none, some "Chairs", [⟨"999.jpg", some "w"⟩]⟩]⟩, true⟩).1
        ≠ Placement.placed ["Chairs"] := by
  refine ⟨by decide, by decide⟩

/-!  ## C3: collision handling at the two transfer sites  -/

theorem lookupA_append_of_some (dest : Folder) (e : String × Nat) (k : String) (v : Nat)
    (h : lookupA dest k = some v) : lookupA (dest ++ [e]) k = some v := by
  induction dest with
  | nil => simp [lookupA] at h
  | cons x rest ih =>
    by_cases hk : x.1 = k
    · simpa [lookupA, hk] using by simpa [lookupA, hk] using h
    · simp only [List.cons_append, lookupA, hk, if_false]
      exact ih (by simpa [lookupA, hk] using h)

theorem putFile_lookup (dest : Folder) (k : String) (v : Nat) :
    lookupA (putFile dest k v) k = some v := by
  induction dest with
  | nil => simp [putFile, lookupA]
  | cons x rest ih =>
    by_cases hk : x.1 = k
    · simp [putFile, hk, lookupA]
    · simp [putFile, hk, lookupA, ih]

/-- C3 (corrected): of the two transfer sites named by the claim, only the
`merge_folders` move checks the destination: a pre-existing file of the
same name is skipped and reported (`skippedExisting`) and its entry is
preserved across the whole per-directory loop.  The per-file archive move
in `process_single_file` performs **no** existence check — `shutil.move`
is called unconditionally and replaces an existing destination file. -/
theorem claim_C3 :
    (∀ (files : List (String × Nat)) (dest : Folder) (k : String) (v : Nat),
        lookupA dest k = some v → lookupA (merge_folder_files dest files) k = some v) ∧
    (∀ (dest : Folder) (name : String) (content v : Nat),
        name ≠ "folder_summary.json" → lookupA dest name = some v →
          merge_file_step dest name content = (dest, MergeAction.skippedExisting)) ∧
    (∀ (dest : Folder) (name : String) (content : Nat),
        lookupA (organizerArchiveMove dest name content) name = some content) := by
  refine ⟨?_, ?_, ?_⟩
  · intro files
    induction files with
    | nil => intro dest k v h; simpa [merge_folder_files] using h
    | cons f rest ih =>
      intro dest k v h
      have hstep : lookupA (merge_file_step dest f.1 f.2).1 k = some v := by
        unfold merge_file_step
        by_cases hs : f.1 = "folder_summary.json"
        · simpa [hs] using h
        · simp only [hs, if_false]
          cases hl : lookupA dest f.1 with
          | some w => simpa using h
          | none => simpa using lookupA_append_of_some dest (f.1, f.2) k v h
      have : merge_folder_files dest (f :: rest)
          = merge_folder_files (merge_file_step dest f.1 f.2).1 rest := rfl
      rw [this]
      exact ih _ k v hstep
  · intro dest name content v hs hl
    unfold merge_file_step
    simp [hs, hl]
  · intro dest name content
    exact putFile_lookup dest name content

/-- C3 witness: the merge loop keeps the pre-existing `a.zip` intact when
the source directory offers a file of the same name. -/
theorem claim_C3_witness :
    lookupA [("a.zip", 7)] "a.zip" = some 7 ∧
      lookupA (merge_folder_files [("a.zip", 7)] [("a.zip", 9)]) "a.zip" = some 7 :=
  ⟨by decide, claim_C3.1 [("a.zip", 9)] [("a.zip", 7)] "a.zip" 7 (by decide)⟩

/-- C3 counterexample: the archive move of `process_single_file` onto a
destination folder that already holds `123.abc.zip` replaces the
pre-existing file's contents (7 becomes 5) — it is neither skipped nor
reported as a collision. -/
theorem claim_C3_counterexample :
    lookupA [("123.abc.zip", 7)] "123.abc.zip" = some 7 ∧
      lookupA (organizerArchiveMove [("123.abc.zip", 7)] "123.abc.zip" 5) "123.abc.zip"
        = some 5 ∧
      lookupA (organizerArchiveMove [("123.abc.zip", 7)] "123.abc.zip" 5) "123.abc.zip"
        ≠ some 7 := by
  refine ⟨by decide, by decide, by decide⟩

/-!  ## C4: the two folder-summary aggregators  -/

/-- Immediate (non-sidecar) file count of a directory. -/
def ownFileCount : Dir → Nat
  | Dir.node fs _ => (fs.filter (fun f => f ≠ "folder_summary.json")).length

/-- Immediate subdirectory count of a directory. -/
def ownDirCount : Dir → Nat
  | Dir.node _ ds => ds.length

theorem orgStep_total_files (s : Summary) (d : Dir) :
    (orgStep s d).total_files = s.total_files + ownFileCount d := by
  cases d; rfl

theorem orgStep_total_subfolders (s : Summary) (d : Dir) :
    (orgStep s d).total_subfolders = s.total_subfolders + ownDirCount d := by
  cases d; rfl

theorem foldl_orgStep_files :
    ∀ (l : List Dir) (s : Summary),
      (l.foldl orgStep s).total_files = s.total_files + (l.map ownFileCount).sum := by
  intro l
  induction l with
  | nil => intro s; simp
  | cons d rest ih =>
    intro s
    simp only [List.foldl_cons, List.map_cons, List.sum_cons]
    rw [ih, orgStep_total_files]
    omega

theorem foldl_orgStep_subfolders :
    ∀ (l : List Dir) (s : Summary),
      (l.foldl orgStep s).total_subfolders
        = s.total_subfolders + (l.map ownDirCount).sum := by
  intro l
  induction l with
  | nil => intro s; simp
  | cons d rest ih =>
    intro s
    simp only [List.foldl_cons, List.map_cons, List.sum_cons]
    rw [ih, orgStep_total_subfolders]
    omega

mutual

theorem walk_sum_files : ∀ d : Dir, ((walkDirs d).map ownFileCount).sum = subtreeFileCount d
  | Dir.node fs ds => by
    rw [walkDirs]
    simp only [List.map_cons, List.sum_cons]
    rw [walk_sum_files_list ds]
    rfl

theorem walk_sum_files_list :
    ∀ ds : List Dir, ((walkDirsList ds).map ownFileCount).sum = subtreeFileCountList ds
  | [] => by rfl
  | d :: ds => by
    rw [walkDirsList]
    simp only [List.map_append, List.sum_append]
    rw [walk_sum_files d, walk_sum_files_list ds]
    rfl

end

mutual

theorem walk_sum_dirs : ∀ d : Dir, ((walkDirs d).map ownDirCount).sum = subtreeDirCount d
  | Dir.node fs ds => by
    rw [walkDirs]
    simp only [List.map_cons, List.sum_cons]
    rw [walk_sum_dirs_list ds]
    rfl

theorem walk_sum_dirs_list :
    ∀ ds : List Dir, ((walkDirsList ds).map ownDirCount).sum = subtreeDirCountList ds
  | [] => by rfl
  | d :: ds => by
    rw [walkDirsList]
    simp only [List.map_append, List.sum_append]
    rw [walk_sum_dirs d, walk_sum_dirs_list ds]
    rfl

end

/-- C4 (corrected): the GUI's `update_folder_summary` counts only the
directory's immediate children — it is invariant under the contents of the
subdirectories (only their number matters) and matches the claim's worked
example — but org.py's `update_folder_summary` walks and counts the
*entire* subtree: its totals equal the numbers of all descendant
non-sidecar files and of all descendant directories. -/
theorem claim_C4 :
    (∀ (fs : List String) (ds ds' : List Dir), ds.length = ds'.length →
        update_folder_summary_gui (Dir.node fs ds)
          = update_folder_summary_gui (Dir.node fs ds')) ∧
    (update_folder_summary_gui
        (Dir.node ["a.zip", "b.jpg", "c.jpg"] [Dir.node [] [], Dir.node [] []])
      = ⟨3, 2, [(".zip", 1), (".jpg", 2)]⟩) ∧
    (∀ d : Dir, (update_folder_summary_org d).total_files = subtreeFileCount d ∧
        (update_folder_summary_org d).total_subfolders = subtreeDirCount d) := by
  refine ⟨?_, by decide, ?_⟩
  · intro fs ds ds' h
    simp [update_folder_summary_gui, h]
  · intro d
    constructor
    · rw [update_folder_summary_org, foldl_orgStep_files, walk_sum_files]; simp
    · rw [update_folder_summary_org, foldl_orgStep_subfolders, walk_sum_dirs]; simp

/-- C4 witness: the GUI summary of a folder with one subfolder is the same
whatever that subfolder contains. -/
theorem claim_C4_witness :
    ([Dir.node ["x"] []] : List Dir).length = ([Dir.node [] [Dir.node [] []]] : List Dir).length ∧
      update_folder_summary_gui (Dir.node ["a.zip"] [Dir.node ["x"] []])
        = update_folder_summary_gui (Dir.node ["a.zip"] [Dir.node [] [Dir.node [] []]]) :=
  ⟨rfl, claim_C4.1 ["a.zip"] [Dir.node ["x"] []] [Dir.node [] [Dir.node [] []]] rfl⟩

/-- C4 counterexample: on a directory with no immediate files and one
subfolder holding `f.zip`, org.py's `update_folder_summary` reports
`total_files = 1` while the immediate-children count is `0`, refuting the
claim for the org.py implementation it names. -/
theorem claim_C4_counterexample :
    (update_folder_summary_org (Dir.node [] [Dir.node ["f.zip"] []])).total_files = 1 ∧
      (update_folder_summary_gui (Dir.node [] [Dir.node ["f.zip"] []])).total_files = 0 ∧
      (update_folder_summary_org (Dir.node [] [Dir.node ["f.zip"] []])).total_files
        ≠ (update_folder_summary_gui (Dir.node [] [Dir.node ["f.zip"] []])).total_files := by
  refine ⟨by decide, by decide, by decide⟩

/-!  ## C8: image quality reconciliation  -/

theorem lexAtLeast_refl (a : ImgCandidate) : lexAtLeast a a := by
  unfold lexAtLeast
  omega

theorem lexAtLeast_trans {a b c : ImgCandidate}
    (h1 : lexAtLeast a b) (h2 : lexAtLeast b c) : lexAtLeast a c := by
  unfold lexAtLeast at *
  omega

theorem lexAtLeast_of_gt {a b : ImgCandidate} (h : imgKeyGt a b = true) :
    lexAtLeast a b := by
  unfold imgKeyGt at h
  unfold lexAtLeast
  simp only [Bool.or_eq_true, Bool.and_eq_true, decide_eq_true_eq, beq_iff_eq] at h
  omega

theorem lexAtLeast_of_not_gt {a b : ImgCandidate} (h : imgKeyGt a b = false) :
    lexAtLeast b a := by
  unfold imgKeyGt at h
  unfold lexAtLeast
  simp only [Bool.or_eq_false_iff, Bool.and_eq_false_iff, decide_eq_false_iff_not,
    beq_eq_false_iff_ne] at h
  omega

theorem pyMaxBy_spec :
    ∀ (es : List ImgCandidate) (e : ImgCandidate),
      pyMaxBy e es ∈ e :: es ∧ ∀ c ∈ e :: es, lexAtLeast (pyMaxBy e es) c := by
  intro es
  induction es with
  | nil =>
    intro e
    refine ⟨by simp [pyMaxBy], ?_⟩
    intro c hc
    simp only [List.mem_singleton] at hc
    subst hc
    exact lexAtLeast_refl _
  | cons x xs ih =>
    intro e
    have hstep : pyMaxBy e (x :: xs) = pyMaxBy (if imgKeyGt x e then x else e) xs := rfl
    obtain ⟨hmem, hdom⟩ := ih (if imgKeyGt x e then x else e)
    have hse : lexAtLeast (if imgKeyGt x e then x else e) e := by
      by_cases hg : imgKeyGt x e = true
      · simp only [hg, if_true]
        exact lexAtLeast_of_gt hg
      · simp only [hg, if_false]
        exact lexAtLeast_refl e
    have hsx : lexAtLeast (if imgKeyGt x e then x else e) x := by
      by_cases hg : imgKeyGt x e = true
      · simp only [hg, if_true]
        exact lexAtLeast_refl x
      · have hg' : imgKeyGt x e = false := by
          cases hgg : imgKeyGt x e
          · rfl
          · exact absurd hgg hg
        simp only [hg', if_false]
        exact lexAtLeast_of_not_gt hg'
    constructor
    · rw [hstep]
      rcases List.mem_cons.mp hmem with h | h
      · rw [h]
        by_cases hg : imgKeyGt x e = true
        · simp [hg]
        · have hg' : imgKeyGt x e = false := by
            cases hgg : imgKeyGt x e
            · rfl
            · exact absurd hgg hg
          simp [hg']
      · simp [h]
    · intro c hc
      rw [hstep]
      have hbest_step : lexAtLeast (pyMaxBy (if imgKeyGt x e then x else e) xs)
          (if imgKeyGt x e then x else e) := hdom _ (by simp)
      rcases List.mem_cons.mp hc with h | h
      · subst h
        exact lexAtLeast_trans hbest_step hse
      · rcases List.mem_cons.mp h with h2 | h2
        · subst h2
          exact lexAtLeast_trans hbest_step hsx
        · exact hdom c (by simp [h2])

theorem keepExisting_iff (e : ImgCandidate) (es : List ImgCandidate)
    (incoming : ImgCandidate) :
    keepExisting (e :: es) incoming = true ↔ lexBeats (pyMaxBy e es) incoming := by
  unfold keepExisting lexBeats
  simp only [Bool.or_eq_true, Bool.and_eq_true, decide_eq_true_eq, beq_iff_eq]

/-- C8 (confirmed): for a non-empty list of readable existing candidates,
there is a lexicographically maximal existing candidate (resolution
primary, byte size tie-break) — the one `max(existing_images, key=...)`
computes — and `handle_duplicate_images` keeps the existing images exactly
when that best candidate strictly beats the newly downloaded image in this
lexicographic order (covering the equal-resolution, strictly-larger-size
case); otherwise the new image is kept. -/
theorem claim_C8 (existing : List ImgCandidate) (incoming : ImgCandidate)
    (h : existing ≠ []) :
    ∃ best, best ∈ existing ∧ (∀ c ∈ existing, lexAtLeast best c) ∧
      (keepExisting existing incoming = true ↔ lexBeats best incoming) := by
  cases existing with
  | nil => exact absurd rfl h
  | cons e es =>
    obtain ⟨hmem, hdom⟩ := pyMaxBy_spec es e
    exact ⟨pyMaxBy e es, hmem, hdom, keepExisting_iff e es incoming⟩

/-- C8 witness: the spec's worked examples — `(800×600, 50000)` existing
versus `(640×480, 90000)` incoming keeps the existing image (resolution
wins), and `(800×600, 40000)` existing versus `(800×600, 60000)` incoming
keeps the incoming one (size tie-break). -/
theorem claim_C8_witness :
    ([(⟨480000, 50000⟩ : ImgCandidate)] ≠ []) ∧
      (∃ best, best ∈ [(⟨480000, 50000⟩ : ImgCandidate)] ∧
        (∀ c ∈ [(⟨480000, 50000⟩ : ImgCandidate)], lexAtLeast best c) ∧
        (keepExisting [⟨480000, 50000⟩] ⟨307200, 90000⟩ = true ↔
          lexBeats best ⟨307200, 90000⟩)) ∧
      keepExisting [⟨480000, 50000⟩] ⟨307200, 90000⟩ = true ∧
      keepExisting [⟨480000, 40000⟩] ⟨480000, 60000⟩ = false :=
  ⟨by decide, claim_C8 [⟨480000, 50000⟩] ⟨307200, 90000⟩ (by decide), by decide, by decide⟩

/-!  ## C5: canonical member of a duplicate group  -/

/-- First enumerated member of maximal size, defined recursively;
bridge between the stable sort's head and the spec-side `find?`. -/
def firstMaxA : List DupMember → Option DupMember
  | [] => none
  | x :: xs =>
    match firstMaxA xs with
    | none => some x
    | some y => if y.size ≤ x.size then some x else some y

theorem insertBySize_all (p : DupMember → Bool) (x : DupMember) :
    ∀ s : List DupMember, (insertBySize x s).all p = (p x && s.all p) := by
  intro s
  induction s with
  | nil => simp [insertBySize]
  | cons y ys ih =>
    by_cases hle : y.size ≤ x.size
    · simp [insertBySize, hle]
    · simp only [insertBySize, hle, if_false, List.all_cons, ih]
      cases p x <;> cases p y <;> simp

theorem sortBySizeDesc_all (p : DupMember → Bool) :
    ∀ l : List DupMember, (sortBySizeDesc l).all p = l.all p := by
  intro l
  induction l with
  | nil => rfl
  | cons x xs ih =>
    simp only [sortBySizeDesc, insertBySize_all, ih, List.all_cons]

theorem insertBySize_ne_nil (x : DupMember) (s : List DupMember) :
    insertBySize x s ≠ [] := by
  cases s with
  | nil => simp [insertBySize]
  | cons y ys =>
    unfold insertBySize
    split <;> simp

theorem sortBySizeDesc_cons_ne_nil (x : DupMember) (xs : List DupMember) :
    sortBySizeDesc (x :: xs) ≠ [] := by
  rw [sortBySizeDesc]
  exact insertBySize_ne_nil x (sortBySizeDesc xs)

theorem head?_insertBySize (x : DupMember) (s : List DupMember) :
    (insertBySize x s).head? =
      some (match s.head? with
            | none => x
            | some y => if y.size ≤ x.size then x else y) := by
  cases s with
  | nil => rfl
  | cons y ys =>
    unfold insertBySize
    by_cases hle : y.size ≤ x.size
    · simp [hle]
    · simp [hle]

theorem firstMaxA_cons_none {x : DupMember} {xs : List DupMember}
    (hf : firstMaxA xs = none) : firstMaxA (x :: xs) = some x := by
  rw [firstMaxA, hf]

theorem firstMaxA_cons_some {x : DupMember} {xs : List DupMember} {y : DupMember}
    (hf : firstMaxA xs = some y) :
    firstMaxA (x :: xs) = if y.size ≤ x.size then some x else some y := by
  rw [firstMaxA, hf]

theorem head?_sortBySizeDesc :
    ∀ l : List DupMember, (sortBySizeDesc l).head? = firstMaxA l := by
  intro l
  induction l with
  | nil => rfl
  | cons x xs ih =>
    rw [sortBySizeDesc, head?_insertBySize, ih]
    cases hf : firstMaxA xs with
    | none => rw [firstMaxA_cons_none hf]
    | some y =>
      rw [firstMaxA_cons_some hf]
      by_cases hle : y.size ≤ x.size
      · simp [hle]
      · simp [hle]

theorem firstMaxA_eq_none_iff (l : List DupMember) : firstMaxA l = none ↔ l = [] := by
  cases l with
  | nil => simp [firstMaxA]
  | cons x xs =>
    constructor
    · intro h
      exfalso
      cases hf : firstMaxA xs with
      | none => rw [firstMaxA_cons_none hf] at h; simp at h
      | some y =>
        rw [firstMaxA_cons_some hf] at h
        by_cases hle : y.size ≤ x.size
        · rw [if_pos hle] at h; simp at h
        · rw [if_neg hle] at h; simp at h
    · intro h
      simp at h

theorem firstMaxA_size_max :
    ∀ (l : List DupMember) (y : DupMember), firstMaxA l = some y → y.size = maxSizeOf l := by
  intro l
  induction l with
  | nil => intro y h; simp [firstMaxA] at h
  | cons x xs ih =>
    intro y h
    cases hf : firstMaxA xs with
    | none =>
      rw [firstMaxA_cons_none hf] at h
      simp only [Option.some.injEq] at h
      have hxs : xs = [] := (firstMaxA_eq_none_iff xs).mp hf
      subst hxs
      subst h
      simp [maxSizeOf]
    | some y' =>
      rw [firstMaxA_cons_some hf] at h
      have hy' := ih y' hf
      by_cases hle : y'.size ≤ x.size
      · rw [if_pos hle] at h
        simp only [Option.some.injEq] at h
        subst h
        simp only [maxSizeOf]
        omega
      · rw [if_neg hle] at h
        simp only [Option.some.injEq] at h
        subst h
        simp only [maxSizeOf]
        omega

theorem firstMaxA_find :
    ∀ (l : List DupMember) (y : DupMember), firstMaxA l = some y →
      l.find? (fun m => m.size == maxSizeOf l) = some y := by
  intro l
  induction l with
  | nil => intro y h; simp [firstMaxA] at h
  | cons x xs ih =>
    intro y h
    cases hf : firstMaxA xs with
    | none =>
      rw [firstMaxA_cons_none hf] at h
      simp only [Option.some.injEq] at h
      have hxs : xs = [] := (firstMaxA_eq_none_iff xs).mp hf
      subst hxs
      subst h
      simp [List.find?, maxSizeOf]
    | some y' =>
      rw [firstMaxA_cons_some hf] at h
      have hy' := firstMaxA_size_max xs y' hf
      by_cases hle : y'.size ≤ x.size
      · rw [if_pos hle] at h
        simp only [Option.some.injEq] at h
        subst h
        have hmax : maxSizeOf (x :: xs) = x.size := by
          simp only [maxSizeOf]; omega
        have hx : (x.size == maxSizeOf (x :: xs)) = true := by
          simp [hmax]
        simp only [List.find?_cons, hx]
      · rw [if_neg hle] at h
        simp only [Option.some.injEq] at h
        subst h
        have hx : (x.size == maxSizeOf xs) = false := by
          simp only [beq_eq_false_iff_ne, ne_eq]
          omega
        have hmax : maxSizeOf (x :: xs) = maxSizeOf xs := by
          simp only [maxSizeOf]; omega
        simp only [List.find?_cons, hmax, hx]
        exact ih y' hf

theorem sortBySizeDesc_eq_self_of_all_eq (c : Nat) :
    ∀ l : List DupMember, l.all (fun m => m.size == c) = true → sortBySizeDesc l = l := by
  intro l
  induction l with
  | nil => intro _; rfl
  | cons x xs ih =>
    intro h
    simp only [List.all_cons, Bool.and_eq_true, beq_iff_eq] at h
    have hxs : xs.all (fun m => m.size == c) = true := h.2
    rw [sortBySizeDesc, ih hxs]
    cases xs with
    | nil => rfl
    | cons y ys =>
      have hy : y.size = c := by
        have h2 := hxs
        simp only [List.all_cons, Bool.and_eq_true, beq_iff_eq] at h2
        exact h2.1
      unfold insertBySize
      rw [if_pos (by omega)]

/-- C5 (confirmed): for every duplicate group with at least two members,
the member kept by `fix_duplicates` is exactly the one the spec
describes — when the sizes are not all equal, the first enumerated member
of maximal byte size (Python's stable descending sort puts the first
encountered maximal element at index 0); when all sizes are equal, the
first enumerated member without a `(n)` substring in its name, falling
back to the first enumerated member. -/
theorem claim_C5 (ms : List DupMember) (h2 : 2 ≤ ms.length) :
    keptFile ms = specCanonical ms := by
  cases ms with
  | nil => simp at h2
  | cons m0 rest =>
    unfold keptFile specCanonical
    cases hs : sortBySizeDesc (m0 :: rest) with
    | nil => exact absurd hs (sortBySizeDesc_cons_ne_nil m0 rest)
    | cons s0 srest =>
      have hhead : firstMaxA (m0 :: rest) = some s0 := by
        rw [← head?_sortBySizeDesc, hs]
        rfl
      by_cases hall : ((s0 :: srest).all (fun m => m.size == s0.size)) = true
      · have hall_l : (m0 :: rest).all (fun m => m.size == s0.size) = true := by
          rw [← sortBySizeDesc_all, hs]
          exact hall
        have hself : sortBySizeDesc (m0 :: rest) = m0 :: rest :=
          sortBySizeDesc_eq_self_of_all_eq s0.size _ hall_l
        rw [hself] at hs
        injection hs with hm0 hrest
        subst hm0
        subst hrest
        simp only [hall, if_true]
        have hcond : rest.all (fun m => m.size == m0.size) = true := by
          have := hall_l
          simp only [List.all_cons, Bool.and_eq_true] at this
          exact this.2
        simp [hcond]
      · simp only [hall, if_false]
        have hcond : ¬(rest.all (fun m => m.size == m0.size) = true) := by
          intro hrest_all
          have hall_l2 : (m0 :: rest).all (fun m => m.size == m0.size) = true := by
            simp [List.all_cons, hrest_all]
          have hself : sortBySizeDesc (m0 :: rest) = m0 :: rest :=
            sortBySizeDesc_eq_self_of_all_eq m0.size _ hall_l2
          rw [hself] at hs
          injection hs with hm0 hrest
          subst hm0
          subst hrest
          exact hall hall_l2
        simp only [hcond, if_false]
        exact (firstMaxA_find (m0 :: rest) s0 hhead).symm

/-- C5 witness: the spec's worked examples — distinct sizes
`{A:100, B:50}` keep `A`; equal sizes `{A (1):100, A:100}` keep the
suffix-free `A.zip`. -/
theorem claim_C5_witness :
    2 ≤ ([(⟨"A (1).zip", 100⟩ : DupMember), ⟨"A.zip", 100⟩] : List DupMember).length ∧
      keptFile [⟨"A (1).zip", 100⟩, ⟨"A.zip", 100⟩]
        = specCanonical [⟨"A (1).zip", 100⟩, ⟨"A.zip", 100⟩] ∧
      keptFile [⟨"A (1).zip", 100⟩, ⟨"A.zip", 100⟩] = some ⟨"A.zip", 100⟩ ∧
      keptFile [⟨"A.zip", 100⟩, ⟨"B.zip", 50⟩] = some ⟨"A.zip", 100⟩ :=
  ⟨by decide, claim_C5 [⟨"A (1).zip", 100⟩, ⟨"A.zip", 100⟩] (by decide),
    by decide, by decide⟩

/-!  ## C10: membership in one duplicate group  -/

/-- First-match lookup in the insertion-ordered group dictionary. -/
def lookupG : List (String × List ScanFile) → String → Option (List ScanFile)
  | [], _ => none
  | (k, ps) :: rest, key => if k = key then some ps else lookupG rest key

theorem lookupG_addToGroups_self (gs : List (String × List ScanFile)) (f : ScanFile) :
    lookupG (addToGroups gs f) (groupKey f)
      = some (((lookupG gs (groupKey f)).getD []) ++ [f]) := by
  induction gs with
  | nil => simp [addToGroups, lookupG]
  | cons g rest ih =>
    obtain ⟨k, ps⟩ := g
    by_cases hk : k = groupKey f
    · simp [addToGroups, lookupG, hk]
    · simp only [addToGroups, hk, if_false, lookupG, ih]

theorem lookupG_addToGroups_other (gs : List (String × List ScanFile)) (f : ScanFile)
    (key : String) (h : key ≠ groupKey f) :
    lookupG (addToGroups gs f) key = lookupG gs key := by
  have hfk : ¬(groupKey f = key) := fun hh => h hh.symm
  induction gs with
  | nil =>
    simp only [addToGroups, lookupG]
    rw [if_neg hfk]
  | cons g rest ih =>
    obtain ⟨k, ps⟩ := g
    by_cases hk : k = groupKey f
    · subst hk
      rw [addToGroups, if_pos rfl, lookupG, lookupG, if_neg hfk, if_neg hfk]
    · rw [addToGroups, if_neg hk, lookupG, lookupG]
      by_cases hkey : k = key
      · rw [if_pos hkey, if_pos hkey]
      · rw [if_neg hkey, if_neg hkey]
        exact ih

theorem goodGroups_addToGroups (gs : List (String × List ScanFile)) (f : ScanFile)
    (h : ∀ k ps, (k, ps) ∈ gs → ∀ p ∈ ps, groupKey p = k) :
    ∀ k ps, (k, ps) ∈ addToGroups gs f → ∀ p ∈ ps, groupKey p = k := by
  induction gs with
  | nil =>
    intro k ps hmem p hp
    simp only [addToGroups, List.mem_singleton, Prod.mk.injEq] at hmem
    obtain ⟨hk, hps⟩ := hmem
    subst hk
    subst hps
    simp only [List.mem_singleton] at hp
    subst hp
    rfl
  | cons g rest ih =>
    obtain ⟨k0, ps0⟩ := g
    intro k ps hmem p hp
    by_cases hk0 : k0 = groupKey f
    · rw [addToGroups, if_pos hk0] at hmem
      rcases List.mem_cons.mp hmem with heq | hrest
      · have hkk : k = k0 := by
          have hfst := congrArg Prod.fst heq
          simpa using hfst
        have hpp : ps = ps0 ++ [f] := by
          have hsnd := congrArg Prod.snd heq
          simpa using hsnd
        subst hkk
        subst hpp
        rcases List.mem_append.mp hp with hold | hnew
        · exact h k ps0 (List.mem_cons_self _ _) p hold
        · simp only [List.mem_singleton] at hnew
          subst hnew
          exact hk0.symm
      · exact h k ps (List.mem_cons_of_mem _ hrest) p hp
    · rw [addToGroups, if_neg hk0] at hmem
      rcases List.mem_cons.mp hmem with heq | hrest
      · have hkk : k = k0 := by
          have hfst := congrArg Prod.fst heq
          simpa using hfst
        have hpp : ps = ps0 := by
          have hsnd := congrArg Prod.snd heq
          simpa using hsnd
        subst hkk
        subst hpp
        exact h k ps (List.mem_cons_self _ _) p hp
      · exact ih (fun k' ps' hm p' hp' => h k' ps' (List.mem_cons_of_mem _ hm) p' hp')
          k ps hrest p hp

theorem buildGroups_good :
    ∀ (fs : List ScanFile) (gs : List (String × List ScanFile)),
      (∀ k ps, (k, ps) ∈ gs → ∀ p ∈ ps, groupKey p = k) →
      ∀ k ps, (k, ps) ∈ fs.foldl addToGroups gs → ∀ p ∈ ps, groupKey p = k := by
  intro fs
  induction fs with
  | nil => intro gs h; exact h
  | cons g rest ih =>
    intro gs h
    rw [List.foldl_cons]
    exact ih (addToGroups gs g) (goodGroups_addToGroups gs g h)

theorem mem_foldl_lookupG :
    ∀ (fs : List ScanFile) (gs : List (String × List ScanFile)) (f : ScanFile),
      ((∃ ps, lookupG gs (groupKey f) = some ps ∧ f ∈ ps) ∨ f ∈ fs) →
      ∃ ps, lookupG (fs.foldl addToGroups gs) (groupKey f) = some ps ∧ f ∈ ps := by
  intro fs
  induction fs with
  | nil =>
    intro gs f h
    rcases h with h | h
    · exact h
    · simp at h
  | cons g rest ih =>
    intro gs f h
    rw [List.foldl_cons]
    apply ih (addToGroups gs g) f
    rcases h with ⟨ps, hl, hm⟩ | hmem
    · left
      by_cases hk : groupKey f = groupKey g
      · refine ⟨(lookupG gs (groupKey g)).getD [] ++ [g], ?_, ?_⟩
        · rw [hk]
          exact lookupG_addToGroups_self gs g
        · rw [hk] at hl
          rw [hl]
          simp [hm]
      · exact ⟨ps, by rw [lookupG_addToGroups_other gs g _ hk]; exact hl, hm⟩
    · rcases List.mem_cons.mp hmem with heq | hrest
      · subst heq
        left
        exact ⟨_, lookupG_addToGroups_self gs f, by simp⟩
      · right
        exact hrest

theorem lookupG_mem :
    ∀ (gs : List (String × List ScanFile)) (k : String) (ps : List ScanFile),
      lookupG gs k = some ps → (k, ps) ∈ gs := by
  intro gs
  induction gs with
  | nil => intro k ps h; simp [lookupG] at h
  | cons g rest ih =>
    obtain ⟨k0, ps0⟩ := g
    intro k ps h
    by_cases hk : k0 = k
    · simp only [lookupG, hk, if_true, Option.some.injEq] at h
      subst hk
      subst h
      simp
    · simp only [lookupG, hk, if_false] at h
      exact List.mem_cons.mpr (Or.inr (ih k ps h))

theorem two_mem_length {ps : List ScanFile} {f1 f2 : ScanFile}
    (h1 : f1 ∈ ps) (h2 : f2 ∈ ps) (hne : f1 ≠ f2) : 1 < ps.length := by
  cases ps with
  | nil => simp at h1
  | cons a t =>
    cases t with
    | nil =>
      simp only [List.mem_singleton] at h1 h2
      exact absurd (h1.trans h2.symm) hne
    | cons b t2 => simp only [List.length_cons]; omega

/-- C10 (confirmed): two files of the scanned subtree land in the same
duplicate group iff their base names (extension included) are equal after
deleting every whitespace-padded parenthesized-number substring and
stripping surrounding whitespace — the directory part plays no role in
the key, so equal-named files from different directories group together,
while names differing in extension never do. -/
theorem claim_C10 (files : List ScanFile) (f1 f2 : ScanFile)
    (h1 : f1 ∈ files) (h2 : f2 ∈ files) (hne : f1 ≠ f2) :
    inSameDupGroup files f1 f2 ↔ normalizeName f1.name = normalizeName f2.name := by
  constructor
  · rintro ⟨k, ps, hmem, hf1, hf2⟩
    have hsub : (k, ps) ∈ buildGroups files := (List.mem_filter.mp hmem).1
    have hg := buildGroups_good files [] (by intro k' ps' hm; simp at hm) k ps hsub
    have e1 : normalizeName f1.name = k := hg f1 hf1
    have e2 : normalizeName f2.name = k := hg f2 hf2
    rw [e1, e2]
  · intro hkey
    obtain ⟨ps1, hl1, hm1⟩ := mem_foldl_lookupG files [] f1 (Or.inr h1)
    obtain ⟨ps2, hl2, hm2⟩ := mem_foldl_lookupG files [] f2 (Or.inr h2)
    have hk : groupKey f2 = groupKey f1 := hkey.symm
    rw [hk] at hl2
    have hps : ps1 = ps2 := by
      rw [hl1] at hl2
      injection hl2
    subst hps
    refine ⟨groupKey f1, ps1, ?_, hm1, hm2⟩
    apply List.mem_filter.mpr
    refine ⟨lookupG_mem _ _ _ hl1, ?_⟩
    simp only [decide_eq_true_eq]
    exact two_mem_length hm1 hm2 hne

/-- C10 witness: `A.zip` files from two different directories form one
duplicate group, while `A.zip` and `A.rar` in the same directory do not
group together. -/
theorem claim_C10_witness :
    inSameDupGroup [⟨"d1", "A.zip"⟩, ⟨"d2", "A.zip"⟩, ⟨"d1", "A.rar"⟩]
        ⟨"d1", "A.zip"⟩ ⟨"d2", "A.zip"⟩ ∧
      ¬inSameDupGroup [⟨"d1", "A.zip"⟩, ⟨"d2", "A.zip"⟩, ⟨"d1", "A.rar"⟩]
        ⟨"d1", "A.zip"⟩ ⟨"d1", "A.rar"⟩ := by
  constructor
  · exact (claim_C10 [⟨"d1", "A.zip"⟩, ⟨"d2", "A.zip"⟩, ⟨"d1", "A.rar"⟩]
      ⟨"d1", "A.zip"⟩ ⟨"d2", "A.zip"⟩ (by decide) (by decide) (by decide)).mpr (by decide)
  · intro hsame
    have hkeys := (claim_C10 [⟨"d1", "A.zip"⟩, ⟨"d2", "A.zip"⟩, ⟨"d1", "A.rar"⟩]
      ⟨"d1", "A.zip"⟩ ⟨"d1", "A.rar"⟩ (by decide) (by decide) (by decide)).mp hsame
    exact absurd hkeys (by decide)

/-!  ## C1: worker-pool drain accounting  -/

theorem gmd_some_ledger (L : Ledger) (fid : String) (call : ApiCall) (d : ModelDetails)
    (h : (get_model_details L fid call).1 = some d) :
    (get_model_details L fid call).2 = L := by
  cases call with
  | error e => simp [get_model_details] at h
  | ok resp =>
    obtain ⟨models⟩ := resp
    cases models with
    | nil => simp [get_model_details] at h
    | cons m ms =>
      by_cases hie : (categoriesOf m).isEmpty = true
      · simp [get_model_details, hie] at h
      · have hif : (categoriesOf m).isEmpty = false := by
          cases hh : (categoriesOf m).isEmpty
          · rfl
          · exact absurd hh hie
        cases hb : (m.images.find?
            (fun im => pyStartsWith (modelNumber fid) im.file_name.data)).bind
            (fun im => im.web_path) with
        | none => simp [get_model_details, hif, hb]
        | some p => simp [get_model_details, hif, hb]

theorem process_single_file_placed_ledger (L : Ledger) (name : String) (env : TaskEnv)
    (cats : List String)
    (h : (process_single_file L name env).1 = Placement.placed cats) :
    (process_single_file L name env).2 = L := by
  cases hid : extract_file_id name with
  | none =>
    simp only [process_single_file, hid] at h
    simp at h
  | some fid =>
    cases hg : get_model_details L fid env.call with
    | mk od L2 =>
      cases od with
      | none =>
        simp only [process_single_file, hid, hg] at h
        simp at h
      | some d =>
        by_cases hm : env.moveOk = true
        · simp only [process_single_file, hid, hg, hm, if_true] at h ⊢
          have h1 : (get_model_details L fid env.call).1 = some d := by rw [hg]
          have h2 := gmd_some_ledger L fid env.call d h1
          rw [hg] at h2
          exact h2
        · have hm' : env.moveOk = false := by
            cases hmm : env.moveOk
            · rfl
            · exact absurd hmm hm
          simp only [process_single_file, hid, hg, hm', Bool.false_eq_true, if_false] at h
          simp at h

theorem runStep_results (s : RunState) (t : Task) :
    (runStep s t).results = s.results ++
      [⟨t.filename, (process_single_file s.ledger t.filename t.env).1,
        decide ((process_single_file s.ledger t.filename t.env).2 ≠ s.ledger)⟩] := rfl

theorem runStep_count (s : RunState) (t : Task) :
    (runStep s t).processed_count = s.processed_count + 1 := rfl

theorem newResult_good (s : RunState) (t : Task) (cats : List String)
    (h : (process_single_file s.ledger t.filename t.env).1 = Placement.placed cats) :
    decide ((process_single_file s.ledger t.filename t.env).2 ≠ s.ledger) = false := by
  have hL := process_single_file_placed_ledger s.ledger t.filename t.env cats h
  simp [hL]

theorem foldl_runStep_count :
    ∀ (ts : List Task) (s : RunState),
      (ts.foldl runStep s).processed_count = s.processed_count + ts.length := by
  intro ts
  induction ts with
  | nil => intro s; simp
  | cons t rest ih =>
    intro s
    rw [List.foldl_cons, ih, runStep_count, List.length_cons]
    omega

theorem foldl_runStep_good :
    ∀ (ts : List Task) (s : RunState),
      (∀ r ∈ s.results, ∀ cats, r.placement = Placement.placed cats → r.ledgered = false) →
      ∀ r ∈ (ts.foldl runStep s).results, ∀ cats,
        r.placement = Placement.placed cats → r.ledgered = false := by
  intro ts
  induction ts with
  | nil => intro s h; exact h
  | cons t rest ih =>
    intro s h
    rw [List.foldl_cons]
    apply ih
    intro r hr cats hp
    rw [runStep_results] at hr
    rcases List.mem_append.mp hr with hold | hnew
    · exact h r hold cats hp
    · simp only [List.mem_singleton] at hnew
      subst hnew
      exact newResult_good s t cats hp

/-- C1 (corrected): after the pool drains, the ProgressCounter equals the
number of enumerated tasks exactly (the sentinel scheme gives each task to
exactly one worker, and the counter is bumped once per dequeued task), and
every task is accounted for in *at most* one of successful placement and
FailureLedger entry — a task that is placed never writes the ledger.  The
"exactly one" half of the claim fails: a task whose lookup finds a
category but no matching image (and likewise one whose archive move
raises) ends in *neither*, see the counterexample. -/
theorem claim_C1 (tasks : List Task) :
    (process_files_model tasks).processed_count = tasks.length ∧
    ∀ r ∈ (process_files_model tasks).results, ∀ cats,
      r.placement = Placement.placed cats → r.ledgered = false := by
  constructor
  · rw [process_files_model, foldl_runStep_count]
    simp
  · exact foldl_runStep_good tasks ⟨0, [], []⟩ (by intro r hr; simp at hr)

/-- C1 witness: a one-task run that succeeds — counter 1, the task placed
in `Chairs`, and its result not ledgered. -/
theorem claim_C1_witness :
    (process_files_model [⟨"123.abc.zip",
        ⟨ApiCall.ok ⟨[⟨some "T", none, some "Chairs", [⟨"123_img.jpg", some "w"⟩]⟩]⟩,
          true⟩⟩]).processed_count = 1 ∧
      (⟨"123.abc.zip", Placement.placed ["Chairs"], false⟩ : TaskResult).ledgered = false :=
  ⟨(claim_C1 [⟨"123.abc.zip",
      ⟨ApiCall.ok ⟨[⟨some "T", none, some "Chairs", [⟨"123_img.jpg", some "w"⟩]⟩]⟩,
        true⟩⟩]).1,
    (claim_C1 [⟨"123.abc.zip",
      ⟨ApiCall.ok ⟨[⟨some "T", none, some "Chairs", [⟨"123_img.jpg", some "w"⟩]⟩]⟩,
        true⟩⟩]).2
      ⟨"123.abc.zip", Placement.placed ["Chairs"], false⟩ (by decide) ["Chairs"] (by decide)⟩

/-- C1 counterexample: a single task whose lookup response carries a
category but no image matching the leading numeric segment: the counter
reaches 1, but the task ends in *neither* a successful placement nor a
FailureLedger entry — the ledger stays empty and the result is
`notPlaced`/unledgered — refuting "every enumerated task is accounted for
in exactly one of" the two. -/
theorem claim_C1_counterexample :
    (process_files_model [⟨"123.abc.zip",
        ⟨ApiCall.ok ⟨[⟨some "T", none, some "Chairs", [⟨"999.jpg", some "w"⟩]⟩]⟩,
          true⟩⟩]).processed_count = 1 ∧
      (process_files_model [⟨"123.abc.zip",
        ⟨ApiCall.ok ⟨[⟨some "T", none, some "Chairs", [⟨"999.jpg", some "w"⟩]⟩]⟩,
          true⟩⟩]).ledger = [] ∧
      (process_files_model [⟨"123.abc.zip",
        ⟨ApiCall.ok ⟨[⟨some "T", none, some "Chairs", [⟨"999.jpg", some "w"⟩]⟩]⟩,
          true⟩⟩]).results = [⟨"123.abc.zip", Placement.notPlaced, false⟩] := by
  refine ⟨by decide, by decide, by decide⟩

end Sky
